import Mathlib

/-!
Verification of the pipeline submission engine (`cluster/submit_pipeline.py`).

The embedding models Python strings as `List Char` (`Str`), Python dicts of
dependencies as total functions `Str → List Str` defaulting to `[]` for
absent keys, and Python sets as duplicate-free lists.  External collaborators
(the `fnmatch`/`re` matchers, the JSON parser, the scheduler and the
interactive prompts) are passed in as explicit parameters, since the engine
only consumes their answers.
-/

namespace Pipeline

/-- Python strings are modelled as lists of characters. -/
abbrev Str := List Char

/-- Python whitespace characters recognised by `str.strip()`. -/
def isPySpace (c : Char) : Bool :=
  c = ' ' || c = '\t' || c = '\n' || c = '\r' || c = '\x0b' || c = '\x0c'

/-- Model of Python `str.strip(chars)`: drop characters satisfying `p` from
both ends. -/
def pyStrip (p : Char → Bool) (l : Str) : Str :=
  ((l.dropWhile p).reverse.dropWhile p).reverse

/-- Model of Python `str.split(c)` for a single-character separator: always
returns at least one (possibly empty) part. -/
def splitOnChar (c : Char) : Str → List Str
  | [] => [[]]
  | x :: xs =>
    if x = c then [] :: splitOnChar c xs
    else
      match splitOnChar c xs with
      | [] => [[x]]
      | h :: t => (x :: h) :: t

/-- Order-preserving duplicate removal; models the `seen`-set loops and the
conversion of Python sets to duplicate-free lists. -/
def dedupKeep (l : List Str) : List Str :=
  l.foldl (fun acc x => if x ∈ acc then acc else acc ++ [x]) []

/-- A job identity `(stage, step)` serialized as `"stage:step"`. -/
def jobKey (p : Str × Str) : Str := p.1 ++ ':' :: p.2

/-- The keys of the job registry (`self.job_configs.keys()`), in load order. -/
def regKeys (reg : List (Str × Str)) : List Str := reg.map jobKey

/-- Well-formed registry: stage and step names contain no colon, so that
`job_key.split(":")` in the source recovers exactly the pair. -/
abbrev WFRegistry (reg : List (Str × Str)) : Prop :=
  ∀ p ∈ reg, ':' ∉ p.1 ∧ ':' ∉ p.2

/-- Value of a nonempty all-ASCII-digit string; `none` otherwise. -/
def digitsToNat? (l : Str) : Option Nat :=
  if l = [] then none
  else l.foldl (fun acc c =>
    acc.bind fun n => if c.isDigit then some (10 * n + (c.toNat - 48)) else none)
    (some 0)

/-- Model of Python `int(str)`: optional surrounding whitespace, optional
sign, then decimal digits; `none` models a raised `ValueError`. -/
def pyInt (l : Str) : Option Int :=
  match pyStrip isPySpace l with
  | '+' :: rest => (digitsToNat? rest).map (fun n => (n : Int))
  | '-' :: rest => (digitsToNat? rest).map (fun n => -(n : Int))
  | rest => (digitsToNat? rest).map (fun n => (n : Int))

/-- Translation of `parse_time_limit` (submit_pipeline.py lines 60-77): split
on `':'`, dispatch on the number of parts, convert fields with `int`, and
return 1.0 hour whenever the shape is unknown or a conversion raises. -/
def parse_time_limit (timeStr : Str) : ℚ :=
  match splitOnChar ':' timeStr with
  | [h, m, s] =>
    match pyInt h, pyInt m, pyInt s with
    | some hv, some mv, some sv => (hv : ℚ) + (mv : ℚ) / 60 + (sv : ℚ) / 3600
    | _, _, _ => 1
  | [m, s] =>
    match pyInt m, pyInt s with
    | some mv, some sv => (mv : ℚ) / 60 + (sv : ℚ) / 3600
    | _, _ => 1
  | [m] =>
    match pyInt m with
    | some mv => (mv : ℚ) / 60
    | none => 1
  | _ => 1

/-- Integer values of a list of fields, or `none` when some field is not an
integer. -/
def intFields? : List Str → Option (List Int)
  | [] => some []
  | f :: fs =>
    match pyInt f, intFields? fs with
    | some v, some vs => some (v :: vs)
    | _, _ => none

/-- Modelled from the spec's wording for duration parsing: a duration is
accepted exactly when all its colon-separated fields are integers and there
are three of them (`HH:MM:SS`), two (`MM:SS`) or one (bare minutes); any
other input yields the default of 1 hour. -/
def timeLimitSpec (timeStr : Str) : ℚ :=
  match intFields? (splitOnChar ':' timeStr) with
  | some [h, m, s] => (h : ℚ) + (m : ℚ) / 60 + (s : ℚ) / 3600
  | some [m, s] => (m : ℚ) / 60 + (s : ℚ) / 3600
  | some [m] => (m : ℚ) / 60
  | _ => 1

/-- Claim C8: `parse_time_limit` accepts exactly the three colon-separated
shapes `HH:MM:SS`, `MM:SS` and bare minutes with integer fields, returning
the corresponding hour count, and returns the default of 1 hour on every
other input. -/
theorem parse_time_limit_matches_spec (t : Str) :
    parse_time_limit t = timeLimitSpec t := by
  unfold parse_time_limit timeLimitSpec
  rcases splitOnChar ':' t with _ | ⟨a, _ | ⟨b, _ | ⟨c, _ | ⟨d, rest⟩⟩⟩⟩
  · rfl
  · rcases ha : pyInt a with _ | va <;> simp [intFields?, ha]
  · rcases ha : pyInt a with _ | va <;> rcases hb : pyInt b with _ | vb <;>
      simp [intFields?, ha, hb]
  · rcases ha : pyInt a with _ | va <;> rcases hb : pyInt b with _ | vb <;>
      rcases hc : pyInt c with _ | vc <;> simp [intFields?, ha, hb, hc]
  · rcases ha : pyInt a with _ | va <;> rcases hb : pyInt b with _ | vb <;>
      rcases hc : pyInt c with _ | vc <;> rcases hd : pyInt d with _ | vd <;>
      rcases hr : intFields? rest with _ | vr <;>
      simp [intFields?, ha, hb, hc, hd, hr]

/-- Replace every `'@'` by `':'`; models `str.replace("@", ":")`. -/
def atToColon (l : Str) : Str := l.map (fun ch => if ch = '@' then ':' else ch)

/-- Replace every `':'` by `'_'`; models `job_key.replace(":", "_")`. -/
def colonToUnderscore (l : Str) : Str :=
  l.map (fun ch => if ch = ':' then '_' else ch)

/-- Node-name cleaning from `_find_matching_jobs`:
`dvc_node.strip().strip("\x22'")`. -/
def cleanNode (dvcNode : Str) : Str :=
  pyStrip (fun c => c = '"' || c = '\'') (pyStrip isPySpace dvcNode)

/-- The `stage_step` rewriting loop of `_find_matching_jobs` (lines
441-444). -/
def underscoreMatches (reg : List (Str × Str)) (cleaned : Str) : List Str :=
  if '_' ∈ cleaned ∧ ':' ∉ cleaned then
    (regKeys reg).filter (fun k => colonToUnderscore k = cleaned)
  else []

/-- The bare-stage expansion of `_find_matching_jobs` (lines 448-457). -/
def stageOnlyMatches (reg : List (Str × Str)) (cleaned : Str) : List Str :=
  if '@' ∉ cleaned ∧ ':' ∉ cleaned then
    (reg.filter (fun p => p.1 = cleaned)).map jobKey
  else []

/-- The last-resort partial-match loop of `_find_matching_jobs` (lines
460-469). -/
def partialMatches (reg : List (Str × Str)) (cleaned : Str) : List Str :=
  (reg.filter (fun p =>
    cleaned = p.1 ∨ cleaned = p.2 ∨ cleaned = p.1 ++ '_' :: p.2 ∨
      p.2.isSuffixOf cleaned ∨ p.2 <:+: cleaned)).map jobKey

/-- Translation of `PipelineSubmitter._find_matching_jobs` (lines 424-479).
The registry is carried as `(stage, step)` pairs, so the source's
`job_key.split(":")` is the pair projection (faithful for `WFRegistry`
registries). -/
def _find_matching_jobs (reg : List (Str × Str)) (dvcNode : Str) : List Str :=
  if cleanNode dvcNode ∈ regKeys reg then [cleanNode dvcNode]
  else if '@' ∈ cleanNode dvcNode ∧ atToColon (cleanNode dvcNode) ∈ regKeys reg then
    [atToColon (cleanNode dvcNode)]
  else if stageOnlyMatches reg (cleanNode dvcNode) ≠ [] then
    stageOnlyMatches reg (cleanNode dvcNode)
  else
    dedupKeep (underscoreMatches reg (cleanNode dvcNode) ++
      partialMatches reg (cleanNode dvcNode))

/-- Translation of `PipelineSubmitter._dvc_stage_to_job_keys` (lines
649-666): `stage@step` becomes `stage:step` when that key exists; a bare
name collects every job whose stage or step equals it. -/
def _dvc_stage_to_job_keys (reg : List (Str × Str)) (dvcStage : Str) : List Str :=
  if '@' ∈ dvcStage then
    if atToColon dvcStage ∈ regKeys reg then [atToColon dvcStage] else []
  else
    (reg.filter (fun p => dvcStage = p.1 ∨ dvcStage = p.2)).map jobKey

lemma colon_mem_of_mem_regKeys {reg : List (Str × Str)} {k : Str}
    (h : k ∈ regKeys reg) : ':' ∈ k := by
  rcases List.mem_map.mp h with ⟨p, _, rfl⟩
  exact List.mem_append.mpr (Or.inr (List.mem_cons_self _ _))

/-- Registry used to refute the bare-name half of claim C6: it has a job of
stage `build` and, separately, a job whose step is named `build`. -/
def stepClashReg : List (Str × Str) :=
  [("build".toList, "train".toList), ("x".toList, "build".toList)]

/-- Counterexample to claim C6: on a registry where some job's *step* is
named `build`, the status resolver maps the bare node name `build` to that
job as well, so it does not resolve to the set of jobs whose stage is
`build`, and the two resolvers disagree. -/
theorem bare_stage_resolution_counterexample :
    _dvc_stage_to_job_keys stepClashReg ("build".toList) =
      ["build:train".toList, "x:build".toList] ∧
    (stepClashReg.filter (fun p => decide (p.1 = "build".toList))).map jobKey =
      ["build:train".toList] ∧
    _find_matching_jobs stepClashReg ("build".toList) = ["build:train".toList] ∧
    _dvc_stage_to_job_keys stepClashReg ("build".toList) ≠
      _find_matching_jobs stepClashReg ("build".toList) := by
  refine ⟨by decide, by decide, by decide, by decide⟩

/-- Claim C6 as amended: `build@train` resolves to exactly `build:train` in
both resolvers; the graph-builder resolver maps the bare stage name `build`
to all jobs of stage `build`, while the status resolver maps it to all jobs
whose stage *or step* equals `build` (so the two agree only when no step is
named `build`). -/
theorem name_resolution_rules (reg : List (Str × Str)) (_hwf : WFRegistry reg)
    (hbt : ("build".toList, "train".toList) ∈ reg)
    (hstage : ∃ p ∈ reg, p.1 = "build".toList) :
    _find_matching_jobs reg ("build@train".toList) = ["build:train".toList] ∧
    _dvc_stage_to_job_keys reg ("build@train".toList) = ["build:train".toList] ∧
    _find_matching_jobs reg ("build".toList) =
      (reg.filter (fun p => decide (p.1 = "build".toList))).map jobKey ∧
    _dvc_stage_to_job_keys reg ("build".toList) =
      (reg.filter (fun p =>
        decide ("build".toList = p.1 ∨ "build".toList = p.2))).map jobKey := by
  have hkeymem : "build:train".toList ∈ regKeys reg :=
    List.mem_map.mpr ⟨_, hbt, by decide⟩
  have hconv : atToColon ("build@train".toList) = "build:train".toList := by decide
  have hnod1 : "build@train".toList ∉ regKeys reg := fun h =>
    absurd (colon_mem_of_mem_regKeys h) (by decide)
  have hnod2 : "build".toList ∉ regKeys reg := fun h =>
    absurd (colon_mem_of_mem_regKeys h) (by decide)
  refine ⟨?_, ?_, ?_, ?_⟩
  · unfold _find_matching_jobs
    rw [show cleanNode ("build@train".toList) = "build@train".toList from by decide]
    rw [if_neg hnod1, if_pos ⟨by decide, by rw [hconv]; exact hkeymem⟩, hconv]
  · unfold _dvc_stage_to_job_keys
    rw [if_pos (by decide : '@' ∈ "build@train".toList),
      if_pos (by rw [hconv]; exact hkeymem), hconv]
  · unfold _find_matching_jobs
    rw [show cleanNode ("build".toList) = "build".toList from by decide]
    rw [if_neg hnod2,
      if_neg (fun h => absurd h.1 (by decide : '@' ∉ "build".toList))]
    rcases hstage with ⟨p, hp, hpe⟩
    have hne : stageOnlyMatches reg ("build".toList) ≠ [] := by
      unfold stageOnlyMatches
      rw [if_pos (by decide : '@' ∉ "build".toList ∧ ':' ∉ "build".toList)]
      exact List.ne_nil_of_mem
        (List.mem_map.mpr ⟨p, List.mem_filter.mpr ⟨hp, by simp [hpe]⟩, rfl⟩)
    rw [if_pos hne]
    unfold stageOnlyMatches
    rw [if_pos (by decide : '@' ∉ "build".toList ∧ ':' ∉ "build".toList)]
  · unfold _dvc_stage_to_job_keys
    rw [if_neg (by decide : ¬ '@' ∈ "build".toList)]

/-- Witness: the amended name-resolution rules instantiated on
`stepClashReg`. -/
theorem name_resolution_rules_witness :
    (WFRegistry stepClashReg ∧
      ("build".toList, "train".toList) ∈ stepClashReg ∧
      ∃ p ∈ stepClashReg, p.1 = "build".toList) ∧
    (_find_matching_jobs stepClashReg ("build@train".toList) =
        ["build:train".toList] ∧
      _dvc_stage_to_job_keys stepClashReg ("build@train".toList) =
        ["build:train".toList] ∧
      _find_matching_jobs stepClashReg ("build".toList) =
        (stepClashReg.filter (fun p => decide (p.1 = "build".toList))).map jobKey ∧
      _dvc_stage_to_job_keys stepClashReg ("build".toList) =
        (stepClashReg.filter (fun p =>
          decide ("build".toList = p.1 ∨ "build".toList = p.2))).map jobKey) :=
  ⟨⟨by decide, by decide, by decide⟩,
    name_resolution_rules stepClashReg (by decide) (by decide) (by decide)⟩

/-- Scan to the first `'"'`: returns the characters before it and the rest
after it, or `none` when there is no quote. -/
def spanToQuote : Str → Option (Str × Str)
  | [] => none
  | c :: rest =>
    if c = '"' then some ([], rest)
    else (spanToQuote rest).map (fun p => (c :: p.1, p.2))

lemma spanToQuote_length : ∀ {l seg rest : Str},
    spanToQuote l = some (seg, rest) → rest.length < l.length := by
  intro l
  induction l with
  | nil => intro seg rest h; simp [spanToQuote] at h
  | cons c cs ih =>
    intro seg rest h
    by_cases hc : c = '"'
    · simp [spanToQuote, hc] at h
      simp [← h.2]
    · simp [spanToQuote, hc] at h
      obtain ⟨p, hp, -⟩ := h
      exact Nat.lt_succ_of_lt (ih hp)

/-- Whether a segment matches `[^"]+@[^"]+`: it must contain an `'@'` that
is neither its first nor its last character. -/
def hasInteriorAt (seg : Str) : Bool := '@' ∈ (seg.drop 1).dropLast

/-- Fuelled scanner for the fallback patterns; the fuel only serves
structural termination and `scanPat` supplies enough of it, since every
step consumes at least one character. -/
def scanPatF (needsAt : Bool) : Nat → Str → List Str
  | 0, _ => []
  | _ + 1, [] => []
  | fuel + 1, c :: rest =>
    if c = '"' then
      match spanToQuote rest with
      | some (seg, rest') =>
        if seg ≠ [] ∧ (needsAt = false ∨ hasInteriorAt seg = true) then
          match rest' with
          | ':' :: rest'' => seg :: scanPatF needsAt fuel rest''
          | _ => scanPatF needsAt fuel rest
        else scanPatF needsAt fuel rest
      | none => scanPatF needsAt fuel rest
    else scanPatF needsAt fuel rest

/-- Model of `re.finditer` for the two fallback patterns
`"([^"]+@[^"]+)":` (with `needsAt = true`) and `"([^"]+)":` (with
`needsAt = false`): at each opening quote, try to match a nonempty
quote-free segment, its closing quote and a following colon; on success the
scan resumes after the colon, on failure one character past the opening
quote. -/
def scanPat (needsAt : Bool) (l : Str) : List Str := scanPatF needsAt l.length l

/-- Per-job verdict derived from the oracle status report. -/
inductive Verdict where
  | needsRun
  | cached
deriving DecidableEq, Repr

/-- Union of the job keys resolved from a list of oracle stage names
(the `changed_job_keys` accumulation loops). -/
def resolvedJobKeys (reg : List (Str × Str)) (stages : List Str) : List Str :=
  dedupKeep (stages.foldl (fun acc st => acc ++ _dvc_stage_to_job_keys reg st) [])

/-- Translation of `PipelineSubmitter._fallback_parse_dvc_output` (lines
607-647): scan the raw text with the two quoted-identifier patterns, resolve
the found names, and mark exactly the resolved jobs `needs_run` and every
other registry job `cached`. -/
def _fallback_parse_dvc_output (reg : List (Str × Str)) (out : Str) :
    List (Str × Verdict) :=
  let changedStages := dedupKeep (scanPat true out ++ scanPat false out)
  let changedKeys := resolvedJobKeys reg changedStages
  (regKeys reg).map (fun k =>
    (k, if k ∈ changedKeys then Verdict.needsRun else Verdict.cached))

/-- Whether a line, once stripped, starts with `'{'` (the JSON-start test of
`_parse_dvc_status_json`, lines 556-559). -/
def startsBrace (l : Str) : Bool :=
  match pyStrip isPySpace l with
  | c :: _ => c = '\x7b'
  | [] => false

/-- The progress-message skipping of `_parse_dvc_status_json` (lines
552-565): drop the lines before the first one starting with `'{'`. -/
def skipToJson (out : Str) : Str :=
  let lines := splitOnChar '\n' out
  match lines.findIdx? startsBrace with
  | some i => List.intercalate ['\n'] (lines.drop i)
  | none => out

/-- Translation of `PipelineSubmitter._parse_dvc_status_json` (lines
547-605).  `jsonParse` stands for `json.loads` restricted to the top-level
keys, with `none` modelling a `JSONDecodeError`; on a decode error the
fallback parser runs on the original output. -/
def _parse_dvc_status_json (jsonParse : Str → Option (List Str))
    (reg : List (Str × Str)) (out : Str) : List (Str × Verdict) :=
  match jsonParse (skipToJson out) with
  | none => _fallback_parse_dvc_output reg out
  | some changedDvcStages =>
    let changedKeys := resolvedJobKeys reg changedDvcStages
    (regKeys reg).map (fun k =>
      (k, if k ∈ changedKeys then Verdict.needsRun else Verdict.cached))

/-- Outcome of the `dvc status --json` invocation as seen by
`check_job_status`: the tool may be missing (its `RuntimeError` propagates),
the invocation may fail (non-zero exit or any other exception), or it
produces output. -/
inductive OracleStatus where
  | missing
  | failed
  | ok (out : Str)

/-- Translation of `PipelineSubmitter.check_job_status` (lines 481-545):
a missing oracle is fatal (`none`), any invocation failure marks every job
`needs_run`, empty output marks every job `cached`, and otherwise the JSON
parser (with its fallback) decides. -/
def check_job_status (jsonParse : Str → Option (List Str))
    (reg : List (Str × Str)) (oracle : OracleStatus) :
    Option (List (Str × Verdict)) :=
  match oracle with
  | OracleStatus.missing => none
  | OracleStatus.failed =>
    some ((regKeys reg).map (fun k => (k, Verdict.needsRun)))
  | OracleStatus.ok out =>
    if pyStrip isPySpace out = [] then
      some ((regKeys reg).map (fun k => (k, Verdict.cached)))
    else some (_parse_dvc_status_json jsonParse reg out)

/-- Registry with a single job `a:x`, used to exhibit the all-clean fallback
result. -/
def oneJobReg : List (Str × Str) := [("a".toList, "x".toList)]

/-- Counterexample to claim C3: on the nonempty, non-JSON oracle output
`garbage` the quoted-identifier fallback finds nothing, yet
`check_job_status` reports the whole registry as `cached` — not as
`needs_run` as the claim requires on irrecoverable parse failure. -/
theorem fallback_reports_all_clean :
    pyStrip isPySpace ("garbage".toList) ≠ [] ∧
    scanPat true ("garbage".toList) = [] ∧
    scanPat false ("garbage".toList) = [] ∧
    check_job_status (fun _ => none) oneJobReg
        (OracleStatus.ok ("garbage".toList)) =
      some [("a:x".toList, Verdict.cached)] :=
  ⟨by decide, by decide, by decide, by decide⟩

/-- Claim C3 as amended: a failed oracle invocation marks every job
`needs_run`; a JSON decode failure instead routes through the fallback
parser, which marks `needs_run` exactly the jobs resolved from quoted
identifiers found in the raw output — when none are found, every job is
reported `cached`. -/
theorem status_parse_failure_policy (jsonParse : Str → Option (List Str))
    (reg : List (Str × Str)) (out : Str)
    (hfail : jsonParse (skipToJson out) = none) :
    check_job_status jsonParse reg OracleStatus.failed =
      some ((regKeys reg).map (fun k => (k, Verdict.needsRun))) ∧
    _parse_dvc_status_json jsonParse reg out =
      _fallback_parse_dvc_output reg out ∧
    ∀ k ∈ regKeys reg,
      ((k, Verdict.needsRun) ∈ _parse_dvc_status_json jsonParse reg out ↔
        k ∈ resolvedJobKeys reg
          (dedupKeep (scanPat true out ++ scanPat false out))) := by
  have h2 : _parse_dvc_status_json jsonParse reg out =
      _fallback_parse_dvc_output reg out := by
    unfold _parse_dvc_status_json
    rw [hfail]
  refine ⟨rfl, h2, ?_⟩
  intro k hk
  rw [h2]
  unfold _fallback_parse_dvc_output
  constructor
  · intro hmem
    rcases List.mem_map.mp hmem with ⟨k', hk', heq⟩
    by_cases hc : k' ∈ resolvedJobKeys reg
        (dedupKeep (scanPat true out ++ scanPat false out))
    · rw [if_pos hc] at heq
      cases heq
      exact hc
    · rw [if_neg hc] at heq
      simp at heq
  · intro hc
    refine List.mem_map.mpr ⟨k, hk, ?_⟩
    rw [if_pos hc]

/-- Witness: the amended parse-failure policy instantiated on `oneJobReg`
with the output `garbage` and an always-failing JSON parser. -/
theorem status_parse_failure_policy_witness :
    ((fun _ : Str => (none : Option (List Str)))
        (skipToJson ("garbage".toList)) = none) ∧
    (check_job_status (fun _ : Str => (none : Option (List Str))) oneJobReg
        OracleStatus.failed =
      some ((regKeys oneJobReg).map (fun k => (k, Verdict.needsRun))) ∧
    _parse_dvc_status_json (fun _ : Str => (none : Option (List Str)))
        oneJobReg ("garbage".toList) =
      _fallback_parse_dvc_output oneJobReg ("garbage".toList) ∧
    ∀ k ∈ regKeys oneJobReg,
      ((k, Verdict.needsRun) ∈ _parse_dvc_status_json
          (fun _ : Str => (none : Option (List Str))) oneJobReg
          ("garbage".toList) ↔
        k ∈ resolvedJobKeys oneJobReg
          (dedupKeep (scanPat true ("garbage".toList) ++
            scanPat false ("garbage".toList))))) :=
  ⟨rfl, status_parse_failure_policy _ oneJobReg _ rfl⟩

/-- Lexicographic comparison of character lists (Python string `<=`),
used to model `matching_jobs.sort()`. -/
def lexLe : Str → Str → Bool
  | [], _ => true
  | _ :: _, [] => false
  | a :: as, b :: bs => if a = b then lexLe as bs else decide (a < b)

/-- Model of Python's stable `list.sort()` on job keys. -/
def sortStr (l : List Str) : List Str :=
  List.insertionSort (fun a b => lexLe a b = true) l

lemma mem_sortStr {l : List Str} {x : Str} : x ∈ sortStr l ↔ x ∈ l :=
  (List.perm_insertionSort _ l).mem_iff

/-- The external matchers used by `_find_target_jobs_by_pattern`:
`fnmatch.fnmatch(job_key, pattern)` and `re.compile(pattern)` (the latter
returning `none` on an invalid pattern, and otherwise the `re.search`
predicate of the compiled regex). -/
structure Matchers where
  fnmatch : Str → Str → Bool
  reCompile : Str → Option (Str → Bool)

/-- The glob metacharacters tested at line 766. -/
def hasWildcard (pattern : Str) : Bool :=
  pattern.any (fun c => c = '*' || c = '?' || c = '[' || c = ']')

/-- The regex metacharacters tested at line 767. -/
def hasRegexChar (pattern : Str) : Bool :=
  pattern.any (fun c => c = '^' || c = '$' || c = '(' || c = ')' ||
    c = '|' || c = '+' || c = '\x7b' || c = '\x7d')

/-- Translation of `PipelineSubmitter._find_target_jobs_by_pattern` (lines
757-804); `none` models the `ValueError` raised on an invalid regex
pattern. -/
def _find_target_jobs_by_pattern (M : Matchers) (reg : List (Str × Str))
    (pattern : Str) : Option (List Str) :=
  if pattern ∈ regKeys reg then some [pattern]
  else if hasWildcard pattern then
    some (sortStr ((regKeys reg).filter (fun k => M.fnmatch k pattern)))
  else if hasRegexChar pattern then
    match M.reCompile pattern with
    | none => none
    | some srch => some (sortStr ((regKeys reg).filter srch))
  else
    if (reg.filter (fun p => p.1 = pattern)).map jobKey = [] then
      some (sortStr ((regKeys reg).filter (fun k => pattern <:+: k)))
    else some (sortStr ((reg.filter (fun p => p.1 = pattern)).map jobKey))

/-- The recursive `add_dependencies` closure of `get_target_jobs` (lines
727-742): add the job, then recurse into its registry-known dependencies,
skipping already-collected jobs.  The fuel only serves structural
termination; `get_target_jobs` supplies enough of it since every recursive
call grows the accumulator. -/
def addDependencies (deps : Str → List Str) (ks : List Str) :
    Nat → Str → List Str → List Str
  | 0, _, acc => acc
  | fuel + 1, job, acc =>
    if job ∈ acc then acc
    else
      (deps job).foldl
        (fun a d => if d ∈ ks then addDependencies deps ks fuel d a else a)
        (acc ++ [job])

/-- Translation of `PipelineSubmitter.get_target_jobs` (lines 706-755):
pattern matching followed by the transitive-dependency closure; `none`
models the `ValueError` raised on an invalid regex or an empty match. -/
def get_target_jobs (M : Matchers) (reg : List (Str × Str))
    (deps : Str → List Str) (pattern : Str) : Option (List Str) :=
  match _find_target_jobs_by_pattern M reg pattern with
  | none => none
  | some matching =>
    if matching = [] then none
    else
      some (matching.foldl
        (fun acc j =>
          addDependencies deps (regKeys reg) ((regKeys reg).length + 1) j acc)
        [])

lemma find_target_subset (M : Matchers) (reg : List (Str × Str))
    (pattern : Str) (matching : List Str)
    (h : _find_target_jobs_by_pattern M reg pattern = some matching) :
    ∀ j ∈ matching, j ∈ regKeys reg := by
  unfold _find_target_jobs_by_pattern at h
  by_cases h1 : pattern ∈ regKeys reg
  · rw [if_pos h1] at h
    cases h
    intro j hj
    rw [List.mem_singleton.mp hj]
    exact h1
  · rw [if_neg h1] at h
    by_cases h2 : hasWildcard pattern = true
    · rw [if_pos h2] at h
      cases h
      intro j hj
      exact (List.mem_filter.mp (mem_sortStr.mp hj)).1
    · rw [if_neg h2] at h
      by_cases h3 : hasRegexChar pattern = true
      · rw [if_pos h3] at h
        cases hrc : M.reCompile pattern with
        | none => rw [hrc] at h; cases h
        | some srch =>
          rw [hrc] at h
          cases h
          intro j hj
          exact (List.mem_filter.mp (mem_sortStr.mp hj)).1
      · rw [if_neg h3] at h
        by_cases h4 : (reg.filter (fun p => decide (p.1 = pattern))).map jobKey =
            ([] : List Str)
        · rw [if_pos h4] at h
          cases h
          intro j hj
          exact (List.mem_filter.mp (mem_sortStr.mp hj)).1
        · rw [if_neg h4] at h
          cases h
          intro j hj
          rcases List.mem_map.mp (mem_sortStr.mp hj) with ⟨p, hp, rfl⟩
          exact List.mem_map.mpr ⟨p, List.mem_of_mem_filter hp, rfl⟩

lemma addDependencies_subset (deps : Str → List Str) (ks : List Str) :
    ∀ (fuel : Nat) (job : Str) (acc : List Str) (x : Str),
      x ∈ addDependencies deps ks fuel job acc → x ∈ acc ∨ x = job ∨ x ∈ ks := by
  intro fuel
  induction fuel with
  | zero => intro job acc x hx; exact Or.inl hx
  | succ fuel ih =>
    intro job acc x hx
    unfold addDependencies at hx
    by_cases hj : job ∈ acc
    · rw [if_pos hj] at hx
      exact Or.inl hx
    · rw [if_neg hj] at hx
      have key : ∀ (l : List Str) (start : List Str),
          x ∈ l.foldl
            (fun a d => if d ∈ ks then addDependencies deps ks fuel d a else a)
            start →
          x ∈ start ∨ x ∈ ks := by
        intro l
        induction l with
        | nil => intro start h; exact Or.inl h
        | cons d ds ihl =>
          intro start h
          simp only [List.foldl_cons] at h
          by_cases hd : d ∈ ks
          · rw [if_pos hd] at h
            rcases ihl _ h with h' | h'
            · rcases ih d start x h' with h'' | h'' | h''
              · exact Or.inl h''
              · rw [h'']; exact Or.inr hd
              · exact Or.inr h''
            · exact Or.inr h'
          · rw [if_neg hd] at h
            exact ihl _ h
      rcases key (deps job) (acc ++ [job]) hx with h' | h'
      · rcases List.mem_append.mp h' with h'' | h''
        · exact Or.inl h''
        · exact Or.inr (Or.inl (List.mem_singleton.mp h''))
      · exact Or.inr (Or.inr h')

/-- Claim C10: every job identity returned by `get_target_jobs` is a key of
the job registry, whatever the dependency mapping mentions — dependencies
naming identities absent from the registry are skipped during closure. -/
theorem get_target_jobs_mem_registry (M : Matchers) (reg : List (Str × Str))
    (deps : Str → List Str) (pattern : Str) (tgt : List Str)
    (h : get_target_jobs M reg deps pattern = some tgt) :
    ∀ j ∈ tgt, j ∈ regKeys reg := by
  unfold get_target_jobs at h
  cases hm : _find_target_jobs_by_pattern M reg pattern with
  | none => rw [hm] at h; cases h
  | some matching =>
    rw [hm] at h
    dsimp only at h
    by_cases hemp : matching = []
    · rw [if_pos hemp] at h; cases h
    · rw [if_neg hemp] at h
      have hms := find_target_subset M reg pattern matching hm
      have key : ∀ (l : List Str), (∀ j ∈ l, j ∈ regKeys reg) →
          ∀ (acc : List Str), (∀ x ∈ acc, x ∈ regKeys reg) →
          ∀ x ∈ l.foldl
            (fun acc j =>
              addDependencies deps (regKeys reg) ((regKeys reg).length + 1) j acc)
            acc,
          x ∈ regKeys reg := by
        intro l
        induction l with
        | nil => intro _ acc hacc x hx; exact hacc x hx
        | cons j js ihl =>
          intro hl acc hacc x hx
          simp only [List.foldl_cons] at hx
          refine ihl (fun q hq => hl q (List.mem_cons_of_mem _ hq)) _ ?_ x hx
          intro y hy
          rcases addDependencies_subset deps (regKeys reg) _ j acc y hy
            with h' | h' | h'
          · exact hacc y h'
          · rw [h']; exact hl j (List.mem_cons_self _ _)
          · exact h'
      cases h
      exact key matching hms [] (fun x hx => absurd hx (List.not_mem_nil x))

/-- Trivial matchers: a glob matcher that matches nothing and a regex
compiler that always reports an invalid pattern. -/
def noMatchers : Matchers := ⟨fun _ _ => false, fun _ => none⟩

/-- Witness: resolving the exact pattern `a:x` against `oneJobReg` returns
`a:x` only, which is a registry key. -/
theorem get_target_jobs_mem_registry_witness :
    (get_target_jobs noMatchers oneJobReg (fun _ => []) ("a:x".toList) =
      some ["a:x".toList]) ∧
    ∀ j ∈ ["a:x".toList], j ∈ regKeys oneJobReg :=
  ⟨by decide,
    get_target_jobs_mem_registry noMatchers oneJobReg (fun _ => [])
      ("a:x".toList) ["a:x".toList] (by decide)⟩

/-- Claim C7: the target closure resolver is a pure function of the
pattern, registry and dependency mapping — it mutates no engine state — so
resolving the same pattern twice against the unchanged state returns the
identical set both times. -/
theorem get_target_jobs_idempotent (M : Matchers) (reg : List (Str × Str))
    (deps : Str → List Str) (pattern : Str) :
    get_target_jobs M reg deps pattern = get_target_jobs M reg deps pattern :=
  rfl

/-- The recursive `add_dependents` cascade of `filter_jobs_by_status`
(lines 832-841): add every target-set job that depends on an already
changed job, then recurse from it.  Iterating the target set in place of
`dependencies.items()` is faithful because the loop body requires
`job_key in target_jobs` and absent dictionary keys have no dependencies.
The fuel only serves structural termination; the caller supplies enough of
it since every recursive call grows the accumulator. -/
def add_dependents (deps : Str → List Str) (target : List Str) :
    Nat → Str → List Str → List Str
  | 0, _, acc => acc
  | fuel + 1, changed, acc =>
    target.foldl
      (fun a j =>
        if changed ∈ deps j ∧ j ∉ a then
          add_dependents deps target fuel j (a ++ [j])
        else a)
      acc

/-- Translation of `PipelineSubmitter.filter_jobs_by_status` (lines
806-851): compute the target set (everything, without a pattern), optionally
return it unfiltered, else take the `needs_run` target jobs and cascade to
their in-target dependents.  `status j = true` models verdict `needs_run`;
`none` models a propagated `ValueError` from `get_target_jobs`. -/
def filter_jobs_by_status (M : Matchers) (reg : List (Str × Str))
    (deps : Str → List Str) (status : Str → Bool) (includeCached : Bool)
    (pat : Option Str) : Option (List Str) :=
  match
    (match pat with
      | some p => get_target_jobs M reg deps p
      | none => some (regKeys reg)) with
  | none => none
  | some target =>
    if includeCached then some target
    else
      some (((regKeys reg).filter (fun k => status k && decide (k ∈ target))).foldl
        (fun acc j => add_dependents deps target (target.length + 1) j acc)
        ((regKeys reg).filter (fun k => status k && decide (k ∈ target))))

lemma add_dependents_subset (deps : Str → List Str) (target : List Str) :
    ∀ (fuel : Nat) (changed : Str) (acc : List Str) (x : Str),
      x ∈ add_dependents deps target fuel changed acc →
      x ∈ acc ∨ x ∈ target := by
  intro fuel
  induction fuel with
  | zero => intro changed acc x hx; exact Or.inl hx
  | succ fuel ih =>
    intro changed acc x hx
    unfold add_dependents at hx
    have key : ∀ (l : List Str), (∀ j ∈ l, j ∈ target) → ∀ (start : List Str),
        x ∈ l.foldl
          (fun a j =>
            if changed ∈ deps j ∧ j ∉ a then
              add_dependents deps target fuel j (a ++ [j])
            else a)
          start →
        x ∈ start ∨ x ∈ target := by
      intro l
      induction l with
      | nil => intro _ start h; exact Or.inl h
      | cons j js ihl =>
        intro hl start h
        simp only [List.foldl_cons] at h
        by_cases hc : changed ∈ deps j ∧ j ∉ start
        · rw [if_pos hc] at h
          rcases ihl (fun q hq => hl q (List.mem_cons_of_mem _ hq)) _ h
            with h' | h'
          · rcases ih j _ x h' with h'' | h''
            · rcases List.mem_append.mp h'' with h3 | h3
              · exact Or.inl h3
              · exact Or.inr ((List.mem_singleton.mp h3) ▸
                  hl j (List.mem_cons_self _ _))
            · exact Or.inr h''
          · exact Or.inr h'
        · rw [if_neg hc] at h
          exact ihl (fun q hq => hl q (List.mem_cons_of_mem _ hq)) _ h
    have hsub : ∀ j ∈ target, j ∈ target := fun _ hq => hq
    exact key target hsub acc hx

lemma runset_subset_target (reg : List (Str × Str)) (deps : Str → List Str)
    (status : Str → Bool) (target : List Str) :
    ∀ x ∈ ((regKeys reg).filter
        (fun k => status k && decide (k ∈ target))).foldl
      (fun acc j => add_dependents deps target (target.length + 1) j acc)
      ((regKeys reg).filter (fun k => status k && decide (k ∈ target))),
      x ∈ target := by
  have key : ∀ (l acc : List Str), (∀ x ∈ acc, x ∈ target) →
      ∀ x ∈ l.foldl
        (fun acc j => add_dependents deps target (target.length + 1) j acc) acc,
      x ∈ target := by
    intro l
    induction l with
    | nil => intro acc hacc x hx; exact hacc x hx
    | cons j js ihl =>
      intro acc hacc x hx
      simp only [List.foldl_cons] at hx
      refine ihl _ ?_ x hx
      intro y hy
      rcases add_dependents_subset deps target _ j acc y hy with h' | h'
      · exact hacc y h'
      · exact h'
  intro x hx
  refine key _ _ ?_ x hx
  intro y hy
  have hb := (List.mem_filter.mp hy).2
  simp only [Bool.and_eq_true, decide_eq_true_eq] at hb
  exact hb.2

/-- Claim C2: with `include_cached` false, every member of the run set
computed by `filter_jobs_by_status` lies in the target set (the resolved
pattern closure, or all registry jobs when no pattern is given), and every
member's dependencies that lie in the run set are members of the run set. -/
theorem filter_jobs_subset_target (M : Matchers) (reg : List (Str × Str))
    (deps : Str → List Str) (status : Str → Bool) (pat : Option Str)
    (run : List Str)
    (h : filter_jobs_by_status M reg deps status false pat = some run) :
    ∃ target : List Str,
      ((pat = none ∧ target = regKeys reg) ∨
        ∃ p, pat = some p ∧ get_target_jobs M reg deps p = some target) ∧
      (∀ j ∈ run, j ∈ target) ∧
      (∀ j ∈ run, ∀ d ∈ deps j, d ∈ run → d ∈ run) := by
  unfold filter_jobs_by_status at h
  cases hpat : pat with
  | none =>
    rw [hpat] at h
    dsimp only at h
    rw [if_neg (by decide : ¬ (false = true))] at h
    cases h
    exact ⟨regKeys reg, Or.inl ⟨rfl, rfl⟩,
      runset_subset_target reg deps status (regKeys reg),
      fun j _ d _ hd => hd⟩
  | some p =>
    rw [hpat] at h
    dsimp only at h
    cases hg : get_target_jobs M reg deps p with
    | none => rw [hg] at h; cases h
    | some target =>
      rw [hg] at h
      dsimp only at h
      rw [if_neg (by decide : ¬ (false = true))] at h
      cases h
      exact ⟨target, Or.inr ⟨p, rfl, hg⟩,
        runset_subset_target reg deps status target,
        fun j _ d _ hd => hd⟩

/-- Witness: the run-set derivation on `oneJobReg` with every job
`needs_run` and no pattern. -/
theorem filter_jobs_subset_target_witness :
    (filter_jobs_by_status noMatchers oneJobReg (fun _ => [])
        (fun _ => true) false none = some ["a:x".toList]) ∧
    ∃ target : List Str,
      (((none : Option Str) = none ∧ target = regKeys oneJobReg) ∨
        ∃ p, (none : Option Str) = some p ∧
          get_target_jobs noMatchers oneJobReg (fun _ => []) p = some target) ∧
      (∀ j ∈ ["a:x".toList], j ∈ target) ∧
      (∀ j ∈ ["a:x".toList], ∀ d ∈ (fun _ : Str => ([] : List Str)) j,
        d ∈ ["a:x".toList] → d ∈ ["a:x".toList]) :=
  ⟨by decide,
    filter_jobs_subset_target noMatchers oneJobReg (fun _ => [])
      (fun _ => true) none ["a:x".toList] (by decide)⟩

/-- One `completed_job` step of the batch loop in `get_execution_order`
(lines 696-702): decrement the in-degree of every job (in the run set) that
depends on the completed job, enqueueing jobs whose in-degree reaches zero.
The run set stands in for the iteration over `dependencies.items()`, which
is faithful because the loop body requires `job in all_jobs` and jobs
missing from the dictionary have no dependencies. -/
def processCompleted (deps : Str → List Str) (allJobs : List Str)
    (completed : Str) (st : (Str → Int) × List Str) : (Str → Int) × List Str :=
  allJobs.foldl
    (fun st job =>
      if completed ∈ deps job then
        (Function.update st.1 job (st.1 job - 1),
          if st.1 job - 1 = 0 then st.2 ++ [job] else st.2)
      else st)
    st

/-- Processing of one emitted batch: run `processCompleted` for each of its
jobs, collecting the next queue from empty (`queue.clear()`). -/
def processBatch (deps : Str → List Str) (allJobs : List Str)
    (batch : List Str) (indeg : Str → Int) : (Str → Int) × List Str :=
  batch.foldl (fun st c => processCompleted deps allJobs c st) (indeg, [])

/-- The `while queue` loop of `get_execution_order` (lines 689-704), with
explicit fuel for structural termination (`get_execution_order` supplies
enough, as proved below): emit the queue as a batch, process it, repeat. -/
def kahnLoop (deps : Str → List Str) (allJobs : List Str) :
    Nat → (Str → Int) → List Str → List (List Str)
  | 0, _, _ => []
  | fuel + 1, indeg, queue =>
    if queue = [] then []
    else
      queue ::
        kahnLoop deps allJobs fuel
          (processBatch deps allJobs queue indeg).1
          (processBatch deps allJobs queue indeg).2

lemma kahnLoop_succ (deps : Str → List Str) (s : List Str) (fuel : Nat)
    (indeg : Str → Int) (queue : List Str) :
    kahnLoop deps s (fuel + 1) indeg queue =
      if queue = [] then []
      else
        queue ::
          kahnLoop deps s fuel
            (processBatch deps s queue indeg).1
            (processBatch deps s queue indeg).2 := by
  conv_lhs => rw [kahnLoop]

/-- The in-degree initialisation of `get_execution_order` (lines 677-683):
the number of a job's dependencies that are also in the run set. -/
def initIndeg (deps : Str → List Str) (allJobs : List Str) : Str → Int :=
  fun job => (((deps job).filter (fun d => decide (d ∈ allJobs))).length : Int)

/-- The initial queue: jobs with no run-set-internal dependency. -/
def initQueue (deps : Str → List Str) (allJobs : List Str) : List Str :=
  allJobs.filter (fun j => decide (initIndeg deps allJobs j = 0))

/-- Translation of `PipelineSubmitter.get_execution_order` (lines 668-704):
Kahn's algorithm restricted to `allJobs`, emitting parallel batches. -/
def get_execution_order (deps : Str → List Str) (allJobs : List Str) :
    List (List Str) :=
  kahnLoop deps allJobs (allJobs.length + 1) (initIndeg deps allJobs)
    (initQueue deps allJobs)

lemma processCompleted_fst (deps : Str → List Str) (c : Str) :
    ∀ (s : List Str), s.Nodup → ∀ (st : (Str → Int) × List Str) (j : Str),
      (processCompleted deps s c st).1 j =
        if j ∈ s ∧ c ∈ deps j then st.1 j - 1 else st.1 j := by
  intro s
  induction s with
  | nil =>
    intro _ st j
    simp [processCompleted]
  | cons a as ih =>
    intro hnd st j
    obtain ⟨ha, hnd'⟩ := List.nodup_cons.mp hnd
    show (processCompleted deps as c
      (if c ∈ deps a then
        (Function.update st.1 a (st.1 a - 1),
          if st.1 a - 1 = 0 then st.2 ++ [a] else st.2)
      else st)).1 j = _
    by_cases hca : c ∈ deps a
    · rw [if_pos hca, ih hnd' _ j]
      dsimp only
      by_cases hj : j = a
      · subst hj
        rw [if_neg (fun hc => ha hc.1), Function.update_same,
          if_pos ⟨List.mem_cons_self _ _, hca⟩]
      · rw [Function.update_noteq hj]
        by_cases hjs : j ∈ as ∧ c ∈ deps j
        · rw [if_pos hjs, if_pos ⟨List.mem_cons_of_mem _ hjs.1, hjs.2⟩]
        · rw [if_neg hjs, if_neg (fun hc => by
            rcases List.mem_cons.mp hc.1 with rfl | hmem
            · exact hj rfl
            · exact hjs ⟨hmem, hc.2⟩)]
    · rw [if_neg hca, ih hnd' st j]
      by_cases hjs : j ∈ as ∧ c ∈ deps j
      · rw [if_pos hjs, if_pos ⟨List.mem_cons_of_mem _ hjs.1, hjs.2⟩]
      · rw [if_neg hjs, if_neg (fun hc => by
          rcases List.mem_cons.mp hc.1 with rfl | hmem
          · exact hca hc.2
          · exact hjs ⟨hmem, hc.2⟩)]

lemma processCompleted_snd_mem (deps : Str → List Str) (c : Str) :
    ∀ (s : List Str), s.Nodup → ∀ (st : (Str → Int) × List Str) (j : Str),
      (j ∈ (processCompleted deps s c st).2 ↔
        j ∈ st.2 ∨ (j ∈ s ∧ c ∈ deps j ∧ st.1 j = 1)) := by
  intro s
  induction s with
  | nil =>
    intro _ st j
    simp [processCompleted]
  | cons a as ih =>
    intro hnd st j
    obtain ⟨ha, hnd'⟩ := List.nodup_cons.mp hnd
    show j ∈ (processCompleted deps as c
      (if c ∈ deps a then
        (Function.update st.1 a (st.1 a - 1),
          if st.1 a - 1 = 0 then st.2 ++ [a] else st.2)
      else st)).2 ↔ _
    by_cases hca : c ∈ deps a
    · rw [if_pos hca, ih hnd' _ j]
      dsimp only
      by_cases hj : j = a
      · subst hj
        by_cases hz : st.1 j - 1 = 0
        · have h1 : st.1 j = 1 := by omega
          simp [hz, List.mem_append, ha, h1, hca]
        · have h1 : ¬ st.1 j = 1 := fun h => hz (by omega)
          simp [hz, ha, h1]
      · rw [Function.update_noteq hj]
        by_cases hz : st.1 a - 1 = 0 <;>
          simp [hz, List.mem_append, List.mem_cons, hj]
    · rw [if_neg hca, ih hnd' st j]
      by_cases hj : j = a
      · subst hj
        simp [ha, hca]
      · simp [List.mem_cons, hj]

lemma processBatch_fold_fst (deps : Str → List Str) (s : List Str)
    (hs : s.Nodup) :
    ∀ (batch : List Str) (st : (Str → Int) × List Str) (j : Str),
      (batch.foldl (fun st c => processCompleted deps s c st) st).1 j =
        if j ∈ s then
          st.1 j - ((batch.filter (fun c => decide (c ∈ deps j))).length : Int)
        else st.1 j := by
  intro batch
  induction batch with
  | nil =>
    intro st j
    by_cases hj : j ∈ s <;> simp [hj]
  | cons c cs ih =>
    intro st j
    simp only [List.foldl_cons]
    rw [ih _ j, processCompleted_fst deps c s hs st j]
    by_cases hj : j ∈ s
    · rw [if_pos hj, if_pos hj]
      by_cases hc : c ∈ deps j
      · rw [if_pos ⟨hj, hc⟩]
        have hlen : (List.filter (fun x => decide (x ∈ deps j)) (c :: cs)).length =
            (List.filter (fun x => decide (x ∈ deps j)) cs).length + 1 := by
          simp [List.filter_cons, hc]
        rw [hlen]
        push_cast
        ring
      · rw [if_neg (fun h => hc h.2)]
        have hlen : (List.filter (fun x => decide (x ∈ deps j)) (c :: cs)).length =
            (List.filter (fun x => decide (x ∈ deps j)) cs).length := by
          simp [List.filter_cons, hc]
        rw [hlen]
    · rw [if_neg hj, if_neg hj, if_neg (fun h => hj h.1)]

lemma processBatch_fold_snd_mem (deps : Str → List Str) (s : List Str)
    (hs : s.Nodup) :
    ∀ (batch : List Str) (st : (Str → Int) × List Str) (j : Str),
      (j ∈ (batch.foldl (fun st c => processCompleted deps s c st) st).2 ↔
        j ∈ st.2 ∨ (j ∈ s ∧ 1 ≤ st.1 j ∧
          st.1 j ≤ ((batch.filter (fun c => decide (c ∈ deps j))).length : Int))) := by
  intro batch
  induction batch with
  | nil =>
    intro st j
    simp only [List.foldl_nil, List.filter_nil, List.length_nil]
    constructor
    · exact Or.inl
    · rintro (h | ⟨_, h1, h2⟩)
      · exact h
      · exact absurd h2 (by omega)
  | cons c cs ih =>
    intro st j
    simp only [List.foldl_cons]
    rw [ih _ j, processCompleted_snd_mem deps c s hs st j,
      processCompleted_fst deps c s hs st j]
    by_cases hj : j ∈ s
    · by_cases hc : c ∈ deps j
      · rw [if_pos ⟨hj, hc⟩]
        have hlen : (List.filter (fun x => decide (x ∈ deps j)) (c :: cs)).length =
            (List.filter (fun x => decide (x ∈ deps j)) cs).length + 1 := by
          simp [List.filter_cons, hc]
        rw [hlen]
        constructor
        · rintro ((h | ⟨_, _, h1⟩) | ⟨_, hge, hle⟩)
          · exact Or.inl h
          · exact Or.inr ⟨hj, by omega, by push_cast; omega⟩
          · exact Or.inr ⟨hj, by omega, by push_cast at hle ⊢; omega⟩
        · rintro (h | ⟨_, hge, hle⟩)
          · exact Or.inl (Or.inl h)
          · push_cast at hle
            by_cases h1 : st.1 j = 1
            · exact Or.inl (Or.inr ⟨hj, hc, h1⟩)
            · exact Or.inr ⟨hj, by omega, by push_cast; omega⟩
      · rw [if_neg (fun h => hc h.2)]
        have hlen : (List.filter (fun x => decide (x ∈ deps j)) (c :: cs)).length =
            (List.filter (fun x => decide (x ∈ deps j)) cs).length := by
          simp [List.filter_cons, hc]
        rw [hlen]
        constructor
        · rintro ((h | ⟨_, hcc, _⟩) | h)
          · exact Or.inl h
          · exact absurd hcc hc
          · exact Or.inr h
        · rintro (h | h)
          · exact Or.inl (Or.inl h)
          · exact Or.inr h
    · constructor
      · rintro ((h | ⟨hjs, _⟩) | ⟨hjs, _⟩)
        · exact Or.inl h
        · exact absurd hjs hj
        · exact absurd hjs hj
      · rintro (h | ⟨hjs, _⟩)
        · exact Or.inl (Or.inl h)
        · exact absurd hjs hj

lemma processCompleted_nodup_le (deps : Str → List Str) (c : Str) :
    ∀ (s : List Str), s.Nodup → ∀ (st : (Str → Int) × List Str),
      st.2.Nodup → (∀ j ∈ st.2, st.1 j ≤ 0) →
      ((processCompleted deps s c st).2.Nodup ∧
        ∀ j ∈ (processCompleted deps s c st).2,
          (processCompleted deps s c st).1 j ≤ 0) := by
  intro s
  induction s with
  | nil =>
    intro _ st hnd hle
    exact ⟨hnd, hle⟩
  | cons a as ih =>
    intro hnd st hq hle
    obtain ⟨ha, hnd'⟩ := List.nodup_cons.mp hnd
    have hunf : processCompleted deps (a :: as) c st =
        processCompleted deps as c
          (if c ∈ deps a then
            (Function.update st.1 a (st.1 a - 1),
              if st.1 a - 1 = 0 then st.2 ++ [a] else st.2)
          else st) := rfl
    rw [hunf]
    by_cases hca : c ∈ deps a
    · rw [if_pos hca]
      refine ih hnd' _ ?_ ?_
      · dsimp only
        by_cases hz : st.1 a - 1 = 0
        · rw [if_pos hz]
          have hanot : a ∉ st.2 := fun hmem => absurd (hle a hmem) (by omega)
          simp [List.nodup_append, hq, hanot]
        · rw [if_neg hz]
          exact hq
      · dsimp only
        intro j hj
        by_cases hja : j = a
        · subst hja
          rw [Function.update_same]
          by_cases hz : st.1 j - 1 = 0
          · omega
          · rw [if_neg hz] at hj
            have := hle j hj
            omega
        · rw [Function.update_noteq hja]
          by_cases hz : st.1 a - 1 = 0
          · rw [if_pos hz] at hj
            rcases List.mem_append.mp hj with h | h
            · exact hle j h
            · exact absurd (List.mem_singleton.mp h) hja
          · rw [if_neg hz] at hj
            exact hle j hj
    · rw [if_neg hca]
      exact ih hnd' st hq hle

lemma processBatch_fold_nodup (deps : Str → List Str) (s : List Str)
    (hs : s.Nodup) :
    ∀ (batch : List Str) (st : (Str → Int) × List Str),
      st.2.Nodup → (∀ j ∈ st.2, st.1 j ≤ 0) →
      ((batch.foldl (fun st c => processCompleted deps s c st) st).2.Nodup ∧
        ∀ j ∈ (batch.foldl (fun st c => processCompleted deps s c st) st).2,
          (batch.foldl (fun st c => processCompleted deps s c st) st).1 j ≤ 0) := by
  intro batch
  induction batch with
  | nil =>
    intro st hnd hle
    exact ⟨hnd, hle⟩
  | cons c cs ih =>
    intro st hnd hle
    simp only [List.foldl_cons]
    have hstep := processCompleted_nodup_le deps c s hs st hnd hle
    exact ih _ hstep.1 hstep.2

/-- Loop invariant of `kahnLoop` relating the emitted jobs `E`, the
in-degree table and the pending queue. -/
structure KahnInv0 (deps : Str → List Str) (s E : List Str)
    (indeg : Str → Int) (queue : List Str) : Prop where
  e_sub : ∀ j ∈ E, j ∈ s
  e_nodup : E.Nodup
  q_sub : ∀ j ∈ queue, j ∈ s
  q_nodup : queue.Nodup
  disj : ∀ j ∈ queue, j ∉ E
  h_le : ∀ j, j ∈ queue ∨ j ∈ E → indeg j ≤ 0
  h_ge : ∀ j ∈ s, j ∉ queue → j ∉ E → 1 ≤ indeg j

lemma kahnStep_inv0 (deps : Str → List Str) (s : List Str) (hs : s.Nodup)
    (E : List Str) (indeg : Str → Int) (queue : List Str)
    (inv : KahnInv0 deps s E indeg queue) :
    KahnInv0 deps s (E ++ queue) (processBatch deps s queue indeg).1
      (processBatch deps s queue indeg).2 := by
  have hfst : ∀ j, (processBatch deps s queue indeg).1 j =
      if j ∈ s then
        indeg j - ((queue.filter (fun c => decide (c ∈ deps j))).length : Int)
      else indeg j :=
    fun j => processBatch_fold_fst deps s hs queue (indeg, []) j
  have hnd : (processBatch deps s queue indeg).2.Nodup ∧
      ∀ j ∈ (processBatch deps s queue indeg).2,
        (processBatch deps s queue indeg).1 j ≤ 0 :=
    processBatch_fold_nodup deps s hs queue (indeg, [])
      List.nodup_nil (fun j hj => absurd hj (List.not_mem_nil j))
  have hsnd' : ∀ j, j ∈ (processBatch deps s queue indeg).2 ↔
      (j ∈ s ∧ 1 ≤ indeg j ∧ indeg j ≤
        ((queue.filter (fun c => decide (c ∈ deps j))).length : Int)) := by
    intro j
    have h := processBatch_fold_snd_mem deps s hs queue (indeg, []) j
    rw [show (j ∈ (processBatch deps s queue indeg).2) =
        (j ∈ (queue.foldl (fun st c => processCompleted deps s c st)
          ((indeg, []) : (Str → Int) × List Str)).2) from rfl, h]
    simp
  refine ⟨?_, ?_, ?_, ?_, ?_, ?_, ?_⟩
  · intro j hj
    rcases List.mem_append.mp hj with h | h
    · exact inv.e_sub j h
    · exact inv.q_sub j h
  · rw [List.nodup_append]
    exact ⟨inv.e_nodup, inv.q_nodup, fun a haE haq => inv.disj a haq haE⟩
  · intro j hj
    exact ((hsnd' j).mp hj).1
  · exact hnd.1
  · intro j hj hjE
    have h1 := ((hsnd' j).mp hj).2.1
    rcases List.mem_append.mp hjE with h | h
    · exact absurd (inv.h_le j (Or.inr h)) (by omega)
    · exact absurd (inv.h_le j (Or.inl h)) (by omega)
  · intro j hj
    rcases hj with hj | hj
    · exact hnd.2 j hj
    · have hle := inv.h_le j (by
        rcases List.mem_append.mp hj with h | h
        · exact Or.inr h
        · exact Or.inl h)
      rw [hfst j]
      by_cases hjs : j ∈ s
      · rw [if_pos hjs]
        have : (0 : Int) ≤
            ((queue.filter (fun c => decide (c ∈ deps j))).length : Int) := by
          positivity
        omega
      · rw [if_neg hjs]
        exact hle
  · intro j hjs hjq hjE
    have hnotq : ¬(j ∈ s ∧ 1 ≤ indeg j ∧ indeg j ≤
        ((queue.filter (fun c => decide (c ∈ deps j))).length : Int)) :=
      fun hc => hjq ((hsnd' j).mpr hc)
    have hge : 1 ≤ indeg j :=
      inv.h_ge j hjs (fun h => hjE (List.mem_append.mpr (Or.inr h)))
        (fun h => hjE (List.mem_append.mpr (Or.inl h)))
    rw [hfst j, if_pos hjs]
    by_contra hcon
    exact hnotq ⟨hjs, hge, by omega⟩

lemma nodup_subset_length {l s : List Str} (hnd : l.Nodup)
    (hsub : ∀ x ∈ l, x ∈ s) : l.length ≤ s.length := by
  have h2 : l.toFinset ⊆ s.toFinset := fun x hx =>
    List.mem_toFinset.mpr (hsub x (List.mem_toFinset.mp hx))
  calc l.length = l.toFinset.card := (List.toFinset_card_of_nodup hnd).symm
    _ ≤ s.toFinset.card := Finset.card_le_card h2
    _ ≤ s.length := List.toFinset_card_le s

lemma kahnLoop_flatten_nodup (deps : Str → List Str) (s : List Str)
    (hs : s.Nodup) :
    ∀ (fuel : Nat) (E : List Str) (indeg : Str → Int) (queue : List Str),
      KahnInv0 deps s E indeg queue →
      ((E ++ (kahnLoop deps s fuel indeg queue).flatten).Nodup ∧
        ∀ j ∈ (kahnLoop deps s fuel indeg queue).flatten, j ∈ s ∧ j ∉ E) := by
  intro fuel
  induction fuel with
  | zero =>
    intro E indeg queue inv
    simp only [kahnLoop, List.flatten_nil, List.append_nil]
    exact ⟨inv.e_nodup, fun j hj => absurd hj (List.not_mem_nil j)⟩
  | succ fuel ih =>
    intro E indeg queue inv
    unfold kahnLoop
    by_cases hq : queue = []
    · rw [if_pos hq]
      simp only [List.flatten_nil, List.append_nil]
      exact ⟨inv.e_nodup, fun j hj => absurd hj (List.not_mem_nil j)⟩
    · rw [if_neg hq]
      have hstep := kahnStep_inv0 deps s hs E indeg queue inv
      have hrec := ih (E ++ queue) _ _ hstep
      simp only [List.flatten_cons]
      constructor
      · rw [← List.append_assoc]
        exact hrec.1
      · intro j hj
        rcases List.mem_append.mp hj with h | h
        · exact ⟨inv.q_sub j h, inv.disj j h⟩
        · have h2 := hrec.2 j h
          exact ⟨h2.1, fun hE => h2.2 (List.mem_append.mpr (Or.inl hE))⟩

lemma kahnLoop_fuel_stable (deps : Str → List Str) (s : List Str)
    (hs : s.Nodup) :
    ∀ (fuel₁ fuel₂ : Nat) (E : List Str) (indeg : Str → Int) (queue : List Str),
      KahnInv0 deps s E indeg queue →
      s.length - E.length < fuel₁ → s.length - E.length < fuel₂ →
      kahnLoop deps s fuel₁ indeg queue = kahnLoop deps s fuel₂ indeg queue := by
  intro fuel₁
  induction fuel₁ with
  | zero =>
    intro fuel₂ E indeg queue _ h1 _
    omega
  | succ fuel₁ ih =>
    intro fuel₂ E indeg queue inv h1 h2
    cases fuel₂ with
    | zero => omega
    | succ fuel₂ =>
      show (if queue = [] then [] else _) = (if queue = [] then [] else _)
      by_cases hq : queue = []
      · rw [if_pos hq, if_pos hq]
      · rw [if_neg hq, if_neg hq]
        congr 1
        have hstep := kahnStep_inv0 deps s hs E indeg queue inv
        have hElen : (E ++ queue).length ≤ s.length :=
          nodup_subset_length hstep.e_nodup hstep.e_sub
        have hqlen : 1 ≤ queue.length := by
          cases queue with
          | nil => exact absurd rfl hq
          | cons a l => simp
        rw [List.length_append] at hElen
        exact ih fuel₂ (E ++ queue) _ _ hstep
          (by rw [List.length_append]; omega)
          (by rw [List.length_append]; omega)

lemma length_filter_or {α : Type} (l : List α) (p q : α → Bool)
    (h : ∀ x ∈ l, ¬(p x = true ∧ q x = true)) :
    (l.filter (fun x => p x || q x)).length =
      (l.filter p).length + (l.filter q).length := by
  induction l with
  | nil => simp
  | cons a as ihl =>
    have h' := fun x hx => h x (List.mem_cons_of_mem _ hx)
    by_cases hp : p a = true
    · have hqf : ¬ q a = true := fun hq => h a (List.mem_cons_self _ _) ⟨hp, hq⟩
      simp only [List.filter_cons, hp, hqf]
      simp [ihl h', hp]
      omega
    · by_cases hq : q a = true
      · simp only [List.filter_cons]
        simp [ihl h', hp, hq]
        omega
      · simp only [List.filter_cons]
        simp [ihl h', hp, hq]

lemma length_filter_mem_comm {l₁ l₂ : List Str} (h₁ : l₁.Nodup)
    (h₂ : l₂.Nodup) :
    (l₁.filter (fun x => decide (x ∈ l₂))).length =
      (l₂.filter (fun x => decide (x ∈ l₁))).length := by
  have e1 : (l₁.filter (fun x => decide (x ∈ l₂))).toFinset =
      l₁.toFinset ∩ l₂.toFinset := by
    ext x
    simp [List.mem_filter]
  have e2 : (l₂.filter (fun x => decide (x ∈ l₁))).toFinset =
      l₂.toFinset ∩ l₁.toFinset := by
    ext x
    simp [List.mem_filter]
  rw [← List.toFinset_card_of_nodup (h₁.filter _),
    ← List.toFinset_card_of_nodup (h₂.filter _), e1, e2, Finset.inter_comm]

lemma deps_done_of_all_mem {deps : Str → List Str} {s E : List Str} {j : Str}
    (h : ∀ d ∈ deps j, d ∈ s → d ∈ E) :
    ((deps j).filter (fun d => decide (d ∈ s) && decide (d ∈ E))).length =
      ((deps j).filter (fun d => decide (d ∈ s))).length := by
  apply congrArg List.length
  apply List.filter_congr
  intro d hd
  by_cases hds : d ∈ s
  · simp [hds, h d hd hds]
  · simp [hds]

lemma filter_and_length_eq {α : Type} (l : List α) (p q : α → Bool)
    (h : (l.filter (fun x => p x && q x)).length = (l.filter p).length) :
    ∀ x ∈ l, p x = true → q x = true := by
  have hcomm : l.filter (fun x => p x && q x) =
      l.filter (fun x => q x && p x) :=
    List.filter_congr (fun x _ => Bool.and_comm _ _)
  have hcomp : l.filter (fun x => q x && p x) = (l.filter p).filter q :=
    (List.filter_filter p l).symm
  have hsub : List.Sublist ((l.filter p).filter q) (l.filter p) :=
    List.filter_sublist _
  have heq : (l.filter p).filter q = l.filter p :=
    hsub.eq_of_length (by rw [← hcomp, ← hcomm]; exact h)
  intro x hx hp
  have hin : x ∈ l.filter p := List.mem_filter.mpr ⟨hx, hp⟩
  rw [← heq] at hin
  exact (List.mem_filter.mp hin).2

lemma filter_and_length_le {α : Type} (l : List α) (p q : α → Bool) :
    (l.filter (fun x => p x && q x)).length ≤ (l.filter p).length := by
  have hcomm : l.filter (fun x => p x && q x) =
      l.filter (fun x => q x && p x) :=
    List.filter_congr (fun x _ => Bool.and_comm _ _)
  have hcomp : l.filter (fun x => q x && p x) = (l.filter p).filter q :=
    (List.filter_filter p l).symm
  rw [hcomm, hcomp]
  exact (List.filter_sublist _).length_le

/-- The in-degree table holds, for every run-set job, the number of its
run-set dependencies not yet emitted. -/
def IndegSpec (deps : Str → List Str) (s E : List Str)
    (indeg : Str → Int) : Prop :=
  ∀ j ∈ s, indeg j =
    (((deps j).filter (fun d => decide (d ∈ s))).length : Int) -
    (((deps j).filter (fun d => decide (d ∈ s) && decide (d ∈ E))).length : Int)

lemma kahnStep_indegSpec (deps : Str → List Str) (s : List Str)
    (hs : s.Nodup) (hdeps : ∀ j, (deps j).Nodup)
    (E : List Str) (indeg : Str → Int) (queue : List Str)
    (inv : KahnInv0 deps s E indeg queue)
    (hval : IndegSpec deps s E indeg) :
    IndegSpec deps s (E ++ queue) (processBatch deps s queue indeg).1 := by
  intro j hj
  have hfst : (processBatch deps s queue indeg).1 j =
      if j ∈ s then
        indeg j - ((queue.filter (fun c => decide (c ∈ deps j))).length : Int)
      else indeg j :=
    processBatch_fold_fst deps s hs queue (indeg, []) j
  rw [hfst, if_pos hj, hval j hj]
  have hsplit : ((deps j).filter
      (fun d => decide (d ∈ s) && decide (d ∈ E ++ queue))).length =
      ((deps j).filter (fun d => decide (d ∈ s) && decide (d ∈ E))).length +
      ((deps j).filter (fun d => decide (d ∈ s) && decide (d ∈ queue))).length := by
    have hcong : (deps j).filter
        (fun d => decide (d ∈ s) && decide (d ∈ E ++ queue)) =
        (deps j).filter (fun d =>
          (decide (d ∈ s) && decide (d ∈ E)) ||
          (decide (d ∈ s) && decide (d ∈ queue))) := by
      apply List.filter_congr
      intro d _
      by_cases hdE : d ∈ E <;> by_cases hdq : d ∈ queue <;>
        by_cases hds : d ∈ s <;>
        simp [hdE, hdq, hds, List.mem_append]
    rw [hcong]
    apply length_filter_or
    intro d _
    rintro ⟨hE, hq⟩
    simp only [Bool.and_eq_true, decide_eq_true_eq] at hE hq
    exact inv.disj d hq.2 hE.2
  have hqcnt : ((deps j).filter
      (fun d => decide (d ∈ s) && decide (d ∈ queue))).length =
      (queue.filter (fun c => decide (c ∈ deps j))).length := by
    have hcong : (deps j).filter
        (fun d => decide (d ∈ s) && decide (d ∈ queue)) =
        (deps j).filter (fun d => decide (d ∈ queue)) := by
      apply List.filter_congr
      intro d _
      by_cases hdq : d ∈ queue
      · simp [hdq, inv.q_sub d hdq]
      · simp [hdq]
    rw [hcong]
    exact length_filter_mem_comm (hdeps j) inv.q_nodup
  rw [hsplit, hqcnt]
  push_cast
  ring

/-- Acyclicity of the dependency mapping restricted to `s`: every nonempty
subset of `s` contains a job none of whose `s`-internal dependencies lies in
the subset.  For finite graphs this characterises freedom from directed
cycles. -/
def AcyclicOn (deps : Str → List Str) (s : List Str) : Prop :=
  ∀ t : List Str, (∀ j ∈ t, j ∈ s) → t ≠ [] →
    ∃ j ∈ t, ∀ d ∈ deps j, d ∈ s → d ∉ t

lemma kahnLoop_complete (deps : Str → List Str) (s : List Str)
    (hs : s.Nodup) (hdeps : ∀ j, (deps j).Nodup) (hacy : AcyclicOn deps s) :
    ∀ (fuel : Nat) (E : List Str) (indeg : Str → Int) (queue : List Str),
      KahnInv0 deps s E indeg queue → IndegSpec deps s E indeg →
      s.length - E.length < fuel →
      ∀ j ∈ s, j ∈ E ∨ j ∈ (kahnLoop deps s fuel indeg queue).flatten := by
  intro fuel
  induction fuel with
  | zero =>
    intro E indeg queue _ _ hlt
    omega
  | succ fuel ih =>
    intro E indeg queue inv hval hlt j hj
    unfold kahnLoop
    by_cases hq : queue = []
    · rw [if_pos hq]
      left
      by_contra hjE
      have htne : s.filter (fun x => decide (x ∉ E)) ≠ [] :=
        List.ne_nil_of_mem (List.mem_filter.mpr ⟨hj, by simpa using hjE⟩)
      have htsub : ∀ x ∈ s.filter (fun x => decide (x ∉ E)), x ∈ s :=
        fun x hx => (List.mem_filter.mp hx).1
      rcases hacy _ htsub htne with ⟨k, hk, hkdeps⟩
      have hks : k ∈ s := htsub k hk
      have hkE : k ∉ E := by simpa using (List.mem_filter.mp hk).2
      have hdone : ∀ d ∈ deps k, d ∈ s → d ∈ E := by
        intro d hd hds
        by_contra hdE
        exact hkdeps d hd hds (List.mem_filter.mpr ⟨hds, by simpa using hdE⟩)
      have h0 : indeg k = 0 := by
        rw [hval k hks, deps_done_of_all_mem hdone]
        ring
      have := inv.h_ge k hks (by rw [hq]; exact List.not_mem_nil k) hkE
      omega
    · rw [if_neg hq]
      have hstep := kahnStep_inv0 deps s hs E indeg queue inv
      have hvstep := kahnStep_indegSpec deps s hs hdeps E indeg queue inv hval
      have hElen : (E ++ queue).length ≤ s.length :=
        nodup_subset_length hstep.e_nodup hstep.e_sub
      have hqlen : 1 ≤ queue.length := by
        cases queue with
        | nil => exact absurd rfl hq
        | cons a l => simp
      rw [List.length_append] at hElen
      have hrec := ih (E ++ queue) _ _ hstep hvstep
        (by rw [List.length_append]; omega) j hj
      simp only [List.flatten_cons]
      rcases hrec with hE | hrest
      · rcases List.mem_append.mp hE with h | h
        · exact Or.inl h
        · exact Or.inr (List.mem_append.mpr (Or.inl h))
      · exact Or.inr (List.mem_append.mpr (Or.inr hrest))

lemma kahnLoop_topo (deps : Str → List Str) (s : List Str)
    (hs : s.Nodup) (hdeps : ∀ j, (deps j).Nodup) :
    ∀ (fuel : Nat) (E : List Str) (indeg : Str → Int) (queue : List Str),
      KahnInv0 deps s E indeg queue → IndegSpec deps s E indeg →
      ∀ (i : Nat) (j : Str),
        j ∈ (kahnLoop deps s fuel indeg queue).getD i [] →
        ∀ d ∈ deps j, d ∈ s →
          d ∈ E ∨ ∃ i' : Nat,
            i' < i ∧ d ∈ (kahnLoop deps s fuel indeg queue).getD i' [] := by
  intro fuel
  induction fuel with
  | zero =>
    intro E indeg queue _ _ i j hjb
    simp [kahnLoop] at hjb
  | succ fuel ih =>
    intro E indeg queue inv hval i j hjb d hd hds
    by_cases hq : queue = []
    · exfalso
      have hnil : kahnLoop deps s (fuel + 1) indeg queue = [] := by
        rw [kahnLoop_succ, if_pos hq]
      rw [hnil] at hjb
      simp at hjb
    · have hunf : kahnLoop deps s (fuel + 1) indeg queue =
          queue :: kahnLoop deps s fuel
            (processBatch deps s queue indeg).1
            (processBatch deps s queue indeg).2 := by
        rw [kahnLoop_succ, if_neg hq]
      rw [hunf] at hjb ⊢
      cases i with
      | zero =>
        rw [List.getD_cons_zero] at hjb
        left
        have hle : indeg j ≤ 0 := inv.h_le j (Or.inl hjb)
        have hjs : j ∈ s := inv.q_sub j hjb
        have hv := hval j hjs
        have hle2 := filter_and_length_le (deps j)
          (fun d => decide (d ∈ s)) (fun d => decide (d ∈ E))
        have heq : ((deps j).filter
            (fun d => decide (d ∈ s) && decide (d ∈ E))).length =
            ((deps j).filter (fun d => decide (d ∈ s))).length := by omega
        have hall := filter_and_length_eq (deps j)
          (fun d => decide (d ∈ s)) (fun d => decide (d ∈ E)) heq
        have := hall d hd (by simpa using hds)
        simpa using this
      | succ i' =>
        rw [List.getD_cons_succ] at hjb
        have hstep := kahnStep_inv0 deps s hs E indeg queue inv
        have hvstep := kahnStep_indegSpec deps s hs hdeps E indeg queue inv hval
        have hrec := ih (E ++ queue) _ _ hstep hvstep i' j hjb d hd hds
        rcases hrec with hE | ⟨i₂, hlt₂, hmem₂⟩
        · rcases List.mem_append.mp hE with h | h
          · exact Or.inl h
          · refine Or.inr ⟨0, Nat.succ_pos _, ?_⟩
            rw [List.getD_cons_zero]
            exact h
        · refine Or.inr ⟨i₂ + 1, Nat.succ_lt_succ hlt₂, ?_⟩
          rw [List.getD_cons_succ]
          exact hmem₂

lemma init_inv0 (deps : Str → List Str) (s : List Str) (hs : s.Nodup) :
    KahnInv0 deps s [] (initIndeg deps s) (initQueue deps s) := by
  refine ⟨?_, List.nodup_nil, ?_, hs.filter _, ?_, ?_, ?_⟩
  · intro j hj
    exact absurd hj (List.not_mem_nil j)
  · intro j hj
    exact List.mem_of_mem_filter hj
  · intro j _
    exact List.not_mem_nil j
  · intro j hj
    rcases hj with hj | hj
    · have := (List.mem_filter.mp hj).2
      simp only [decide_eq_true_eq] at this
      omega
    · exact absurd hj (List.not_mem_nil j)
  · intro j hjs hjq _
    have hne : ¬ initIndeg deps s j = 0 := by
      intro h0
      exact hjq (List.mem_filter.mpr ⟨hjs, by simpa using h0⟩)
    have hpos : (0 : Int) ≤ initIndeg deps s j := by
      unfold initIndeg
      positivity
    omega

lemma init_indegSpec (deps : Str → List Str) (s : List Str) :
    IndegSpec deps s [] (initIndeg deps s) := by
  intro j _
  unfold initIndeg
  have : (deps j).filter
      (fun d => decide (d ∈ s) && decide (d ∈ ([] : List Str))) = [] := by
    simp
  rw [this]
  simp

/-- Claim C1: on a duplicate-free run set with a duplicate-suppressed
dependency mapping that is acyclic when restricted to the run set,
`get_execution_order` produces a valid topological partition: the batches
are disjoint, their union is exactly the run set, and every run-set-internal
dependency of a job sits in a strictly earlier batch. -/
theorem get_execution_order_topological (deps : Str → List Str)
    (runSet : List Str) (hnd : runSet.Nodup)
    (hdeps : ∀ j, (deps j).Nodup) (hacy : AcyclicOn deps runSet) :
    (get_execution_order deps runSet).flatten.Nodup ∧
    (∀ j, j ∈ (get_execution_order deps runSet).flatten ↔ j ∈ runSet) ∧
    (∀ (i : Nat) (j : Str),
       j ∈ (get_execution_order deps runSet).getD i [] →
       ∀ d ∈ deps j, d ∈ runSet →
         ∃ i' : Nat,
           i' < i ∧ d ∈ (get_execution_order deps runSet).getD i' []) := by
  have hinv := init_inv0 deps runSet hnd
  have hval := init_indegSpec deps runSet
  have hflat := kahnLoop_flatten_nodup deps runSet hnd (runSet.length + 1)
    [] (initIndeg deps runSet) (initQueue deps runSet) hinv
  refine ⟨by simpa using hflat.1, ?_, ?_⟩
  · intro j
    constructor
    · intro hj
      exact (hflat.2 j hj).1
    · intro hj
      have := kahnLoop_complete deps runSet hnd hdeps hacy
        (runSet.length + 1) [] (initIndeg deps runSet)
        (initQueue deps runSet) hinv hval (by simp) j hj
      rcases this with h | h
      · exact absurd h (List.not_mem_nil j)
      · exact h
  · intro i j hjb d hd hds
    have := kahnLoop_topo deps runSet hnd hdeps (runSet.length + 1)
      [] (initIndeg deps runSet) (initQueue deps runSet) hinv hval
      i j hjb d hd hds
    rcases this with h | h
    · exact absurd h (List.not_mem_nil d)
    · exact h

/-- Dependencies and run set of the C1 witness: `b:y` depends on `a:x`. -/
def twoJobDeps : Str → List Str :=
  fun j => if j = "b:y".toList then ["a:x".toList] else []

/-- Run set of the C1 witness. -/
def twoJobRun : List Str := ["a:x".toList, "b:y".toList]

lemma twoJobDeps_nodup : ∀ j, (twoJobDeps j).Nodup := by
  intro j
  unfold twoJobDeps
  split <;> simp

lemma twoJobRun_acyclic : AcyclicOn twoJobDeps twoJobRun := by
  intro t hsub hne
  by_cases ha : "a:x".toList ∈ t
  · refine ⟨"a:x".toList, ha, ?_⟩
    intro d hd
    have : twoJobDeps ("a:x".toList) = [] := by decide
    rw [this] at hd
    exact absurd hd (List.not_mem_nil d)
  · cases t with
    | nil => exact absurd rfl hne
    | cons x xs =>
      have hx := hsub x (List.mem_cons_self _ _)
      have hxb : x = "b:y".toList := by
        rcases List.mem_cons.mp hx with h | h
        · subst h
          exact absurd (List.mem_cons_self _ _) ha
        · simpa using h
      refine ⟨x, List.mem_cons_self _ _, ?_⟩
      subst hxb
      intro d hd _
      have : twoJobDeps ("b:y".toList) = ["a:x".toList] := by decide
      rw [this] at hd
      rw [List.mem_singleton.mp hd]
      exact ha

/-- Witness: the topological-partition theorem instantiated on the two-job
chain `a:x ← b:y`, whose schedule is the two singleton batches. -/
theorem get_execution_order_topological_witness :
    (twoJobRun.Nodup ∧ (∀ j, (twoJobDeps j).Nodup) ∧
      AcyclicOn twoJobDeps twoJobRun) ∧
    (get_execution_order twoJobDeps twoJobRun =
      [["a:x".toList], ["b:y".toList]]) ∧
    ((get_execution_order twoJobDeps twoJobRun).flatten.Nodup ∧
      (∀ j, j ∈ (get_execution_order twoJobDeps twoJobRun).flatten ↔
        j ∈ twoJobRun) ∧
      (∀ (i : Nat) (j : Str),
        j ∈ (get_execution_order twoJobDeps twoJobRun).getD i [] →
        ∀ d ∈ twoJobDeps j, d ∈ twoJobRun →
          ∃ i' : Nat,
            i' < i ∧
              d ∈ (get_execution_order twoJobDeps twoJobRun).getD i' [])) :=
  ⟨⟨by decide, twoJobDeps_nodup, twoJobRun_acyclic⟩, by decide,
    get_execution_order_topological twoJobDeps twoJobRun (by decide)
      twoJobDeps_nodup twoJobRun_acyclic⟩

/-- Claim C9: for every duplicate-free job set and arbitrary dependency
mapping — cycles included — the Kahn loop of `get_execution_order`
terminates (any fuel beyond the job count computes the same schedule, i.e.
the `while` loop exits by emptying its queue) and no job appears in more
than one batch. -/
theorem get_execution_order_terminates (deps : Str → List Str)
    (runSet : List Str) (hnd : runSet.Nodup) :
    (∀ fuel : Nat, runSet.length < fuel →
      kahnLoop deps runSet fuel (initIndeg deps runSet)
        (initQueue deps runSet) = get_execution_order deps runSet) ∧
    (get_execution_order deps runSet).flatten.Nodup := by
  have hinv := init_inv0 deps runSet hnd
  constructor
  · intro fuel hfuel
    exact kahnLoop_fuel_stable deps runSet hnd fuel (runSet.length + 1)
      [] (initIndeg deps runSet) (initQueue deps runSet) hinv
      (by simpa using hfuel) (by simp)
  · have hflat := kahnLoop_flatten_nodup deps runSet hnd (runSet.length + 1)
      [] (initIndeg deps runSet) (initQueue deps runSet) hinv
    simpa using hflat.1

/-- Cyclic dependency mapping for the C9 witness: `a:x` and `b:y` depend on
each other. -/
def cycleDeps : Str → List Str :=
  fun j =>
    if j = "b:y".toList then ["a:x".toList]
    else if j = "a:x".toList then ["b:y".toList]
    else []

/-- Witness: termination on a two-job dependency cycle — the schedule is
empty (the cyclic jobs are silently dropped) and the loop still
terminates. -/
theorem get_execution_order_terminates_witness :
    (twoJobRun.Nodup ∧ get_execution_order cycleDeps twoJobRun = []) ∧
    ((∀ fuel : Nat, twoJobRun.length < fuel →
      kahnLoop cycleDeps twoJobRun fuel (initIndeg cycleDeps twoJobRun)
        (initQueue cycleDeps twoJobRun) =
          get_execution_order cycleDeps twoJobRun) ∧
    (get_execution_order cycleDeps twoJobRun).flatten.Nodup) :=
  ⟨⟨by decide, by decide⟩,
    get_execution_order_terminates cycleDeps twoJobRun (by decide)⟩

/-- Outcome of one `trigger.sh` invocation as seen by `submit_job`: success
with a parsed job id, success whose output yields no id (the `unknown_N`
path), or a non-zero exit (`CalledProcessError`). -/
inductive SchedResult where
  | ok (id : Str)
  | okNoId
  | err
deriving DecidableEq, Repr

/-- External environment of a run: the dependency mapping, the scheduler
behaviour per job, and the interactive answers to the three prompts
(continue after a failed submission, continue after an unexpected error,
continue after a mostly-failed batch). -/
structure RunEnv where
  deps : Str → List Str
  sched : Str → SchedResult
  contFail : Str → Bool
  contError : Str → Bool
  contBatch : Nat → Bool

/-- The `active_deps` filter of `submit_job` (line 970): dependencies that
are both in the run set and already recorded in `submitted_jobs`. -/
def activeDeps (deps : Str → List Str) (submitted : List (Str × Str))
    (jobsToRun : List Str) (jobKey : Str) : List Str :=
  (deps jobKey).filter
    (fun dep => decide (dep ∈ jobsToRun) && decide (dep ∈ submitted.map Prod.fst))

/-- The dependency-constraint construction of `submit_job` (lines 965-979):
an `afterok` flag listing the recorded external ids of the active
dependencies, or nothing when there are none. -/
def dependencyArgs (deps : Str → List Str) (submitted : List (Str × Str))
    (jobsToRun : List Str) (jobKey : Str) : List Str :=
  if activeDeps deps submitted jobsToRun jobKey = [] then []
  else
    ["--dependency".toList,
      "afterok:".toList ++
        List.intercalate [':']
          ((activeDeps deps submitted jobsToRun jobKey).map
            (fun dep => (submitted.lookup dep).getD []))]

/-- The sentinel id `failed_N` returned by `submit_job` when the user
continues past a failure (line 1065). -/
def failedMarker (n : Nat) : Str := "failed_".toList ++ (Nat.repr n).toList

/-- The placeholder id `unknown_N` returned when no job id can be parsed
from successful output (line 1044). -/
def unknownMarker (n : Nat) : Str := "unknown_".toList ++ (Nat.repr n).toList

/-- The `job_id.startswith("failed_")` test of `run_pipeline` (line
1129). -/
def startsWithFailed (s : Str) : Bool := "failed_".toList.isPrefixOf s

/-- One recorded submission attempt: the job, the dependency arguments it
was submitted with, the `submitted_jobs` map at that moment, and how the
attempt ended (`none` models the re-raised exception after the user
declined the in-`submit_job` prompt). -/
structure Attempt where
  job : Str
  args : List Str
  mapBefore : List (Str × Str)
  result : Option Str
deriving DecidableEq, Repr

/-- Run state threaded through the submission loops of `run_pipeline`:
the `submitted_jobs` map, the two counters, and the trace of attempts. -/
structure RState where
  submitted : List (Str × Str)
  submittedCount : Nat
  failedCount : Nat
  trace : List Attempt
deriving DecidableEq, Repr

/-- Model of one `submit_job` call plus the bookkeeping of its caller
(lines 1125-1150): returns the new state, whether the attempt counts as a
batch failure, and whether the inner `for` loop is broken (the user
declined both the `submit_job` prompt and the unexpected-error prompt). -/
def stepJob (env : RunEnv) (jobsToRun : List Str) (st : RState) (job : Str) :
    RState × Bool × Bool :=
  let args := dependencyArgs env.deps st.submitted jobsToRun job
  match env.sched job with
  | SchedResult.ok i =>
    if startsWithFailed i then
      ({ st with
          failedCount := st.failedCount + 1
          trace := st.trace ++ [⟨job, args, st.submitted, some i⟩] },
        true, false)
    else
      ({ st with
          submitted := st.submitted ++ [(job, i)]
          submittedCount := st.submittedCount + 1
          trace := st.trace ++ [⟨job, args, st.submitted, some i⟩] },
        false, false)
  | SchedResult.okNoId =>
    ({ st with
        submitted := st.submitted ++ [(job, unknownMarker st.submitted.length)]
        submittedCount := st.submittedCount + 1
        trace := st.trace ++
          [⟨job, args, st.submitted, some (unknownMarker st.submitted.length)⟩] },
      false, false)
  | SchedResult.err =>
    if env.contFail job then
      ({ st with
          failedCount := st.failedCount + 1
          trace := st.trace ++
            [⟨job, args, st.submitted, some (failedMarker st.submitted.length)⟩] },
        true, false)
    else
      ({ st with
          failedCount := st.failedCount + 1
          trace := st.trace ++ [⟨job, args, st.submitted, none⟩] },
        true, !env.contError job)

/-- The inner `for job_key in batch` loop (lines 1125-1150), with the
`break` on a declined unexpected-error prompt. -/
def runJobs (env : RunEnv) (jobsToRun : List Str) :
    RState → Nat → List Str → RState × Nat
  | st, bf, [] => (st, bf)
  | st, bf, job :: rest =>
    let r := stepJob env jobsToRun st job
    let bf' := if r.2.1 then bf + 1 else bf
    if r.2.2 then (r.1, bf') else runJobs env jobsToRun r.1 bf' rest

/-- The outer batch loop of `run_pipeline` (lines 1119-1166): after each
batch, when more than half of it failed, the run continues only on an
affirmative answer; note that a declined unexpected-error prompt only
breaks the inner loop. -/
def runBatches (env : RunEnv) (jobsToRun : List Str) :
    RState → Nat → List (List Str) → RState
  | st, _, [] => st
  | st, i, batch :: rest =>
    let r := runJobs env jobsToRun st 0 batch
    if r.2 > batch.length / 2 then
      if env.contBatch i then runBatches env jobsToRun r.1 (i + 1) rest
      else r.1
    else runBatches env jobsToRun r.1 (i + 1) rest

/-- The executing phase of `run_pipeline` (after confirmation), starting
from an empty `submitted_jobs` map. -/
def run_pipeline_exec (env : RunEnv) (jobsToRun : List Str)
    (batches : List (List Str)) : RState :=
  runBatches env jobsToRun ⟨[], 0, 0, []⟩ 1 batches

lemma runJobs_cons (env : RunEnv) (jobsToRun : List Str) (st : RState)
    (bf : Nat) (job : Str) (rest : List Str) :
    runJobs env jobsToRun st bf (job :: rest) =
      if (stepJob env jobsToRun st job).2.2 then
        ((stepJob env jobsToRun st job).1,
          if (stepJob env jobsToRun st job).2.1 then bf + 1 else bf)
      else
        runJobs env jobsToRun (stepJob env jobsToRun st job).1
          (if (stepJob env jobsToRun st job).2.1 then bf + 1 else bf) rest := by
  conv_lhs => rw [runJobs]

lemma runBatches_cons (env : RunEnv) (jobsToRun : List Str) (st : RState)
    (i : Nat) (batch : List Str) (rest : List (List Str)) :
    runBatches env jobsToRun st i (batch :: rest) =
      if (runJobs env jobsToRun st 0 batch).2 > batch.length / 2 then
        (if env.contBatch i then
          runBatches env jobsToRun (runJobs env jobsToRun st 0 batch).1
            (i + 1) rest
        else (runJobs env jobsToRun st 0 batch).1)
      else
        runBatches env jobsToRun (runJobs env jobsToRun st 0 batch).1
          (i + 1) rest := by
  conv_lhs => rw [runBatches]

/-- Soundness property of one recorded attempt: its dependency arguments
were computed from the `submitted_jobs` map at that moment, and that map
held only successfully submitted jobs. -/
def GoodAttempt (env : RunEnv) (jobsToRun : List Str) (a : Attempt) : Prop :=
  a.args = dependencyArgs env.deps a.mapBefore jobsToRun a.job ∧
  ∀ p ∈ a.mapBefore,
    env.sched p.1 = SchedResult.ok p.2 ∨ env.sched p.1 = SchedResult.okNoId

lemma stepJob_inv (env : RunEnv) (jobsToRun : List Str) (st : RState)
    (job : Str)
    (hsub : ∀ p ∈ st.submitted,
      env.sched p.1 = SchedResult.ok p.2 ∨ env.sched p.1 = SchedResult.okNoId)
    (htr : ∀ a ∈ st.trace, GoodAttempt env jobsToRun a) :
    (∀ p ∈ (stepJob env jobsToRun st job).1.submitted,
      env.sched p.1 = SchedResult.ok p.2 ∨
        env.sched p.1 = SchedResult.okNoId) ∧
    (∀ a ∈ (stepJob env jobsToRun st job).1.trace,
      GoodAttempt env jobsToRun a) := by
  unfold stepJob
  cases hsc : env.sched job with
  | ok i =>
    dsimp only
    by_cases hf : startsWithFailed i = true
    · rw [if_pos hf]
      refine ⟨hsub, ?_⟩
      intro a ha
      rcases List.mem_append.mp ha with h | h
      · exact htr a h
      · rw [List.mem_singleton.mp h]
        exact ⟨rfl, hsub⟩
    · rw [if_neg hf]
      constructor
      · intro p hp
        rcases List.mem_append.mp hp with h | h
        · exact hsub p h
        · rw [List.mem_singleton.mp h]
          exact Or.inl hsc
      · intro a ha
        rcases List.mem_append.mp ha with h | h
        · exact htr a h
        · rw [List.mem_singleton.mp h]
          exact ⟨rfl, hsub⟩
  | okNoId =>
    dsimp only
    constructor
    · intro p hp
      rcases List.mem_append.mp hp with h | h
      · exact hsub p h
      · rw [List.mem_singleton.mp h]
        exact Or.inr hsc
    · intro a ha
      rcases List.mem_append.mp ha with h | h
      · exact htr a h
      · rw [List.mem_singleton.mp h]
        exact ⟨rfl, hsub⟩
  | err =>
    dsimp only
    by_cases hc : env.contFail job = true
    · rw [if_pos hc]
      refine ⟨hsub, ?_⟩
      intro a ha
      rcases List.mem_append.mp ha with h | h
      · exact htr a h
      · rw [List.mem_singleton.mp h]
        exact ⟨rfl, hsub⟩
    · rw [if_neg hc]
      refine ⟨hsub, ?_⟩
      intro a ha
      rcases List.mem_append.mp ha with h | h
      · exact htr a h
      · rw [List.mem_singleton.mp h]
        exact ⟨rfl, hsub⟩

lemma runJobs_inv (env : RunEnv) (jobsToRun : List Str) :
    ∀ (jobs : List Str) (st : RState) (bf : Nat),
      (∀ p ∈ st.submitted,
        env.sched p.1 = SchedResult.ok p.2 ∨
          env.sched p.1 = SchedResult.okNoId) →
      (∀ a ∈ st.trace, GoodAttempt env jobsToRun a) →
      ((∀ p ∈ (runJobs env jobsToRun st bf jobs).1.submitted,
          env.sched p.1 = SchedResult.ok p.2 ∨
            env.sched p.1 = SchedResult.okNoId) ∧
        (∀ a ∈ (runJobs env jobsToRun st bf jobs).1.trace,
          GoodAttempt env jobsToRun a)) := by
  intro jobs
  induction jobs with
  | nil =>
    intro st bf hsub htr
    exact ⟨hsub, htr⟩
  | cons job rest ih =>
    intro st bf hsub htr
    have hstep := stepJob_inv env jobsToRun st job hsub htr
    rw [runJobs_cons]
    by_cases hb : (stepJob env jobsToRun st job).2.2 = true
    · rw [if_pos hb]
      exact hstep
    · rw [if_neg hb]
      exact ih _ _ hstep.1 hstep.2

lemma runBatches_inv (env : RunEnv) (jobsToRun : List Str) :
    ∀ (batches : List (List Str)) (st : RState) (i : Nat),
      (∀ p ∈ st.submitted,
        env.sched p.1 = SchedResult.ok p.2 ∨
          env.sched p.1 = SchedResult.okNoId) →
      (∀ a ∈ st.trace, GoodAttempt env jobsToRun a) →
      ∀ a ∈ (runBatches env jobsToRun st i batches).trace,
        GoodAttempt env jobsToRun a := by
  intro batches
  induction batches with
  | nil =>
    intro st i _ htr
    exact htr
  | cons batch rest ih =>
    intro st i hsub htr
    have hjobs := runJobs_inv env jobsToRun batch st 0 hsub htr
    rw [runBatches_cons]
    by_cases hb : (runJobs env jobsToRun st 0 batch).2 > batch.length / 2
    · rw [if_pos hb]
      by_cases hcb : env.contBatch i = true
      · rw [if_pos hcb]
        exact ih _ _ hjobs.1 hjobs.2
      · rw [if_neg hcb]
        exact hjobs.2
    · rw [if_neg hb]
      exact ih _ _ hjobs.1 hjobs.2

/-- Claim C4: every submission attempt of a run carries a dependency
constraint computed from the `submitted_jobs` map at submission time: it
references exactly the recorded ids of the dependencies that are in the run
set and already successfully submitted, the map holds only successful
submissions, and a job none of whose dependencies qualify (in particular
when they all failed) is submitted with no `afterok` clause. -/
theorem dependency_constraint_sound (env : RunEnv) (jobsToRun : List Str)
    (batches : List (List Str)) :
    ∀ a ∈ (run_pipeline_exec env jobsToRun batches).trace,
      a.args = dependencyArgs env.deps a.mapBefore jobsToRun a.job ∧
      (∀ p ∈ a.mapBefore,
        env.sched p.1 = SchedResult.ok p.2 ∨
          env.sched p.1 = SchedResult.okNoId) ∧
      (∀ d ∈ activeDeps env.deps a.mapBefore jobsToRun a.job,
        d ∈ jobsToRun ∧ d ∈ a.mapBefore.map Prod.fst) ∧
      (activeDeps env.deps a.mapBefore jobsToRun a.job = [] →
        a.args = []) := by
  intro a ha
  have hgood := runBatches_inv env jobsToRun batches ⟨[], 0, 0, []⟩ 1
    (fun p hp => absurd hp (List.not_mem_nil p))
    (fun x hx => absurd hx (List.not_mem_nil x)) a ha
  refine ⟨hgood.1, hgood.2, ?_, ?_⟩
  · intro d hd
    have := List.mem_filter.mp hd
    have hb := this.2
    simp only [Bool.and_eq_true, decide_eq_true_eq] at hb
    exact hb
  · intro hempty
    rw [hgood.1]
    unfold dependencyArgs
    rw [if_pos hempty]

/-- Environment of the C4 witness: `b:y` depends on `a:x`, both submit
successfully. -/
def chainEnv : RunEnv :=
  ⟨twoJobDeps,
    fun j =>
      if j = "a:x".toList then SchedResult.ok "7".toList
      else SchedResult.ok "8".toList,
    fun _ => true, fun _ => true, fun _ => true⟩

/-- Witness: the dependency-constraint soundness applied to the two-job
chain, whose second submission carries `afterok:7`. -/
theorem dependency_constraint_sound_witness :
    ((run_pipeline_exec chainEnv twoJobRun
        [["a:x".toList], ["b:y".toList]]).trace.length = 2) ∧
    ∀ a ∈ (run_pipeline_exec chainEnv twoJobRun
        [["a:x".toList], ["b:y".toList]]).trace,
      a.args = dependencyArgs chainEnv.deps a.mapBefore twoJobRun a.job ∧
      (∀ p ∈ a.mapBefore,
        chainEnv.sched p.1 = SchedResult.ok p.2 ∨
          chainEnv.sched p.1 = SchedResult.okNoId) ∧
      (∀ d ∈ activeDeps chainEnv.deps a.mapBefore twoJobRun a.job,
        d ∈ twoJobRun ∧ d ∈ a.mapBefore.map Prod.fst) ∧
      (activeDeps chainEnv.deps a.mapBefore twoJobRun a.job = [] →
        a.args = []) :=
  ⟨by decide,
    dependency_constraint_sound chainEnv twoJobRun
      [["a:x".toList], ["b:y".toList]]⟩

/-- Environment of the C5 refutation: in the first batch `a` submits and
`b` fails with the user declining both prompts; `c` sits in the second
batch. -/
def declineEnv : RunEnv :=
  ⟨fun _ => [],
    fun j =>
      if j = "a".toList then SchedResult.ok "1".toList
      else if j = "c".toList then SchedResult.ok "2".toList
      else SchedResult.err,
    fun _ => false, fun _ => false, fun _ => false⟩

/-- Claim C5 fails on the code: after `b`'s submission fails and the user
declines both the continue prompt and the unexpected-error prompt (the
`raise` path of `submit_job` and the `break` of `run_pipeline`), only the
inner batch loop stops — the batch-failure check `1 > 2 / 2` does not
trigger, and `c` of the next batch is still submitted. -/
theorem run_pipeline_submits_after_decline :
    declineEnv.contFail ("b".toList) = false ∧
    declineEnv.contError ("b".toList) = false ∧
    (run_pipeline_exec declineEnv ["a".toList, "b".toList, "c".toList]
        [["a".toList, "b".toList], ["c".toList]]).trace =
      [⟨"a".toList, [], [], some "1".toList⟩,
        ⟨"b".toList, [], [("a".toList, "1".toList)], none⟩,
        ⟨"c".toList, [], [("a".toList, "1".toList)], some "2".toList⟩] :=
  ⟨rfl, rfl, by decide⟩

end Pipeline
